import Mathlib

/-!
# Verification of the magnet-search pipeline (`main.py`)

Shallow embedding of the scrape-and-decode pipeline of the
`astrbot_plugin_BitTorrent` plugin: the Base64/percent deobfuscation
utility (`MagnetUtils.decrypt_base64`), the URL resolver
(`MagnetUtils.get_full_url`) and the search pipeline
(`MagnetSearchService.search`).

Modelling conventions:
* Python `str` values are Lean `String`s (a Python string is a sequence of
  code points; slicing, length and iteration agree with `List Char`).
* Exceptions are modelled with `Except String α`, the `String` being the
  Python `str(e)` message.  Network I/O (`self.client.get(url)` followed by
  `.text`) is an oracle `Env.get : String → Except String String`.
* `BeautifulSoup` parsing of the decoded page is an oracle
  `Env.parse : String → Soup` where `Soup` records exactly the queries the
  code performs on the parse tree (result container items, and the first
  anchor whose `href` matches `magnet:\?xt=urn:btih:`).
* The concrete regular expressions that the code runs over plain strings
  (`window\.atob\('([^']+)'`, `文件大小：([0-9.]+ [GMK]B)`,
  `创建时间：(\d{4}-\d{2}-\d{2})`, `magnet:\?xt=urn:btih:[a-fA-F0-9]{40,}[^"']*`)
  are implemented directly as scanners over `List Char`, following
  `re.search` semantics (try every start position, leftmost match wins).
-/

namespace BitTorrent

/-- Python `s[:n]` on a `str`: the first `n` code points. -/
def pyTake (n : Nat) (s : String) : String := String.mk (s.toList.take n)

/-- Whitespace set of Python `str.strip()` (the ASCII whitespace characters;
the rare non-ASCII Unicode spaces are not modelled). -/
def isPyWs (c : Char) : Bool :=
  c = ' ' || c = '\t' || c = '\n' || c = '\r' || c = '\x0b' || c = '\x0c'

/-- Python `str.strip()`: drop leading and trailing whitespace. -/
def pyStrip (s : String) : String :=
  String.mk (((s.toList.dropWhile isPyWs).reverse.dropWhile isPyWs).reverse)

/-- If `lit` is a prefix of `l`, return the rest of `l` after it. -/
def matchLiteral : List Char → List Char → Option (List Char)
  | [], l => some l
  | _ :: _, [] => none
  | p :: ps, c :: cs => if c = p then matchLiteral ps cs else none

/-- Scan in `re.search` style: try `f` at every start position in order,
returning the first (leftmost) success. -/
def scanFirst (f : List Char → Option α) : List Char → Option α
  | [] => f []
  | c :: cs => (f (c :: cs)).orElse (fun _ => scanFirst f cs)

/-! ## UTF-8 (model of `bytes.decode('utf-8', errors=...)` / `str.encode()`) -/

/-- UTF-8 encoding of one Unicode scalar value. -/
def utf8EncodeChar (c : Char) : List Nat :=
  let n := c.toNat
  if n < 0x80 then [n]
  else if n < 0x800 then [0xC0 + n / 64, 0x80 + n % 64]
  else if n < 0x10000 then [0xE0 + n / 4096, 0x80 + n / 64 % 64, 0x80 + n % 64]
  else [0xF0 + n / 262144, 0x80 + n / 4096 % 64, 0x80 + n / 64 % 64, 0x80 + n % 64]

/-- UTF-8 encoding of a string, as a byte list (Python `str.encode('utf-8')`). -/
def utf8Encode (s : List Char) : List Nat := s.flatMap utf8EncodeChar

/-- Is `b` a UTF-8 continuation byte (`0x80 ≤ b < 0xC0`)? -/
def isContByte (b : Nat) : Bool := decide (0x80 ≤ b) && decide (b < 0xC0)

/-- Given a lead byte `b` and the following bytes, the number of continuation
bytes of the valid UTF-8 sequence starting here, if any (rejecting overlong
forms, surrogates and out-of-range scalars, as Python's UTF-8 codec does). -/
def utf8StepLen (b : Nat) (rest : List Nat) : Option Nat :=
  if b < 0x80 then some 0
  else if 0xC2 ≤ b ∧ b < 0xE0 then
    match rest with
    | c1 :: _ => if isContByte c1 then some 1 else none
    | [] => none
  else if 0xE0 ≤ b ∧ b < 0xF0 then
    match rest with
    | c1 :: c2 :: _ =>
      if (if b = 0xE0 then decide (0xA0 ≤ c1) && decide (c1 < 0xC0)
          else if b = 0xED then decide (0x80 ≤ c1) && decide (c1 < 0xA0)
          else isContByte c1) && isContByte c2 then some 2 else none
    | _ => none
  else if 0xF0 ≤ b ∧ b < 0xF5 then
    match rest with
    | c1 :: c2 :: c3 :: _ =>
      if (if b = 0xF0 then decide (0x90 ≤ c1) && decide (c1 < 0xC0)
          else if b = 0xF4 then decide (0x80 ≤ c1) && decide (c1 < 0x90)
          else isContByte c1) && isContByte c2 && isContByte c3 then some 3 else none
    | _ => none
  else none

/-- Reassemble the scalar value from a lead byte and its continuation bytes. -/
def utf8Scalar (b : Nat) : List Nat → Nat
  | [] => b
  | [c1] => (b - 0xC0) * 64 + (c1 - 0x80)
  | [c1, c2] => (b - 0xE0) * 4096 + (c1 - 0x80) * 64 + (c2 - 0x80)
  | c1 :: c2 :: c3 :: _ => (b - 0xF0) * 262144 + (c1 - 0x80) * 4096 + (c2 - 0x80) * 64 + (c3 - 0x80)

/-- Fuel-indexed UTF-8 decoder; on an undecodable byte it emits `repl` and
skips one byte (`errors='ignore'` for `repl = []`, `errors='replace'` for
`repl = ['�']`). -/
def utf8DecodeAux (repl : List Char) : Nat → List Nat → List Char
  | _, [] => []
  | 0, _ => []
  | fuel + 1, b :: rest =>
    match utf8StepLen b rest with
    | some k => Char.ofNat (utf8Scalar b (rest.take k)) :: utf8DecodeAux repl fuel (rest.drop k)
    | none => repl ++ utf8DecodeAux repl fuel rest

/-- UTF-8 decoding of a byte list with error handling `repl` per skipped byte. -/
def utf8DecodeWith (repl : List Char) (l : List Nat) : List Char :=
  utf8DecodeAux repl l.length l

/-! ## Base64 (model of `base64.b64decode` / `base64.b64encode`) -/

/-- The standard Base64 alphabet. -/
def b64Alphabet : List Char :=
  ['A', 'B', 'C', 'D', 'E', 'F', 'G', 'H', 'I', 'J', 'K', 'L', 'M',
   'N', 'O', 'P', 'Q', 'R', 'S', 'T', 'U', 'V', 'W', 'X', 'Y', 'Z',
   'a', 'b', 'c', 'd', 'e', 'f', 'g', 'h', 'i', 'j', 'k', 'l', 'm',
   'n', 'o', 'p', 'q', 'r', 's', 't', 'u', 'v', 'w', 'x', 'y', 'z',
   '0', '1', '2', '3', '4', '5', '6', '7', '8', '9', '+', '/']

/-- Digit character of a 6-bit value. -/
def b64Char (i : Nat) : Char := b64Alphabet.getD i 'A'

/-- Index of a character in the Base64 alphabet. -/
def b64Index (c : Char) : Option Nat := b64Alphabet.findIdx? (fun d => d = c)

/-- Model of `base64.b64encode`: bytes to Base64 characters with `=` padding. -/
def b64EncodeBytes : List Nat → List Char
  | [] => []
  | [a] => [b64Char (a / 4), b64Char (a % 4 * 16), '=', '=']
  | [a, b] => [b64Char (a / 4), b64Char (a % 4 * 16 + b / 16), b64Char (b % 16 * 4), '=']
  | a :: b :: c :: rest =>
    b64Char (a / 4) :: b64Char (a % 4 * 16 + b / 16) :: b64Char (b % 16 * 4 + c / 64) ::
      b64Char (c % 64) :: b64EncodeBytes rest

/-- Model of one pass of `binascii.a2b_base64` in non-strict mode, which is
what `base64.b64decode` runs with its default `validate=False`.  The state
is the position inside the current quadruple (`quadPos`, 0-3), the bits
carried over from the previous data character (`leftchar`), the count of
padding characters of the current quadruple (`pads`), and the bytes
emitted so far (`acc`, reversed).  Characters outside the alphabet are
skipped.  A `=` is ignored while the current quadruple has fewer than two
data characters; otherwise it counts as padding, and as soon as
`quadPos + pads` reaches 4 the function returns everything decoded so far
without examining the rest of the input.  A data character resets the
padding count and emits one output byte when it is the 2nd, 3rd or 4th of
its quadruple.  Input ending mid-quadruple raises `binascii.Error`
(`none`): with 1 data character "cannot be 1 more than a multiple of 4",
with 2-3 and too little padding "Incorrect padding". -/
def a2bBase64 : List Char → Nat → Nat → Nat → List Nat → Option (List Nat)
  | [], quadPos, _, _, acc => if quadPos = 0 then some acc.reverse else none
  | c :: rest, quadPos, leftchar, pads, acc =>
    if c = '=' then
      if 2 ≤ quadPos then
        if 4 ≤ quadPos + (pads + 1) then some acc.reverse
        else a2bBase64 rest quadPos leftchar (pads + 1) acc
      else a2bBase64 rest quadPos leftchar pads acc
    else
      match b64Index c with
      | none => a2bBase64 rest quadPos leftchar pads acc
      | some v =>
        match quadPos with
        | 0 => a2bBase64 rest 1 v 0 acc
        | 1 => a2bBase64 rest 2 ((leftchar * 64 + v) % 16) 0 ((leftchar * 64 + v) / 16 :: acc)
        | 2 => a2bBase64 rest 3 ((leftchar * 64 + v) % 4) 0 ((leftchar * 64 + v) / 4 :: acc)
        | _ => a2bBase64 rest 0 0 0 ((leftchar * 64 + v) :: acc)

/-- Model of `base64.b64decode(s)` with the default `validate=False`: the
`str` argument is first ASCII-encoded (a non-ASCII character raises
`ValueError`), then decoded by `binascii.a2b_base64` in non-strict mode. -/
def b64DecodePy (s : List Char) : Option (List Nat) :=
  if ∀ c ∈ s, c.toNat < 128 then a2bBase64 s 0 0 0 [] else none

/-! ## Percent-encoding (model of `urllib.parse.quote` / `unquote`) -/

/-- Bytes that `urllib.parse.quote(s, safe='/')` leaves unescaped:
ASCII alphanumerics, `_ . - ~` and `/`. -/
def safeByte (b : Nat) : Bool :=
  (decide (0x41 ≤ b) && decide (b ≤ 0x5A)) || (decide (0x61 ≤ b) && decide (b ≤ 0x7A)) ||
  (decide (0x30 ≤ b) && decide (b ≤ 0x39)) ||
  b = 0x5F || b = 0x2E || b = 0x2D || b = 0x7E || b = 0x2F

/-- Uppercase hexadecimal digit of a value below 16. -/
def hexUpperDigit (d : Nat) : Char :=
  ['0', '1', '2', '3', '4', '5', '6', '7', '8', '9', 'A', 'B', 'C', 'D', 'E', 'F'].getD d '0'

/-- How `quote` renders one byte: literally if safe, else `%XX`. -/
def quoteByte (b : Nat) : List Char :=
  if safeByte b then [Char.ofNat b] else ['%', hexUpperDigit (b / 16), hexUpperDigit (b % 16)]

/-- Model of `urllib.parse.quote(s)` (default `safe='/'`): UTF-8 encode,
then percent-escape every unsafe byte. -/
def percentEncode (s : String) : String := String.mk ((utf8Encode s.toList).flatMap quoteByte)

/-- Value of a hexadecimal digit character (both cases), if it is one. -/
def hexVal (c : Char) : Option Nat :=
  if c.isDigit then some (c.toNat - 48)
  else if 'a' ≤ c ∧ c ≤ 'f' then some (c.toNat - 87)
  else if 'A' ≤ c ∧ c ≤ 'F' then some (c.toNat - 55)
  else none

/-- Lexical token of `unquote`: a literal character, or one percent-decoded byte. -/
inductive PctTok where
  | lit (c : Char)
  | byte (b : Nat)
deriving DecidableEq

/-- Fuel-indexed tokeniser of `unquote`: each valid `%XX` becomes a byte,
every other character (including a `%` not followed by two hex digits)
stays literal. -/
def unquoteTokensAux : Nat → List Char → List PctTok
  | _, [] => []
  | 0, _ => []
  | fuel + 1, c :: cs =>
    if c = '%' then
      match cs with
      | h1 :: h2 :: r =>
        match hexVal h1, hexVal h2 with
        | some v1, some v2 => PctTok.byte (v1 * 16 + v2) :: unquoteTokensAux fuel r
        | _, _ => PctTok.lit c :: unquoteTokensAux fuel cs
      | _ => PctTok.lit c :: unquoteTokensAux fuel cs
    else PctTok.lit c :: unquoteTokensAux fuel cs

/-- Tokenise the input of `unquote`. -/
def unquoteTokens (l : List Char) : List PctTok := unquoteTokensAux l.length l

/-- Is the token a percent-decoded byte? -/
def tokIsByte : PctTok → Bool
  | PctTok.byte _ => true
  | PctTok.lit _ => false

/-- The byte carried by a byte token. -/
def tokByteVal : PctTok → Nat
  | PctTok.byte b => b
  | PctTok.lit _ => 0

/-- Render the token stream: literal characters pass through, and each
maximal run of percent-decoded bytes is UTF-8 decoded with
`errors='replace'`, as `urllib.parse.unquote` does. -/
def unquoteRenderAux : Nat → List PctTok → List Char
  | _, [] => []
  | 0, _ => []
  | fuel + 1, PctTok.lit c :: rest => c :: unquoteRenderAux fuel rest
  | fuel + 1, PctTok.byte b :: rest =>
    let run := rest.takeWhile tokIsByte
    utf8DecodeWith ['�'] (b :: run.map tokByteVal) ++
      unquoteRenderAux fuel (rest.drop run.length)

/-- Render a full token stream. -/
def unquoteRender (l : List PctTok) : List Char := unquoteRenderAux l.length l

/-- Model of `urllib.parse.unquote` (default `encoding='utf-8', errors='replace'`). -/
def unquote (s : String) : String :=
  String.mk (unquoteRender (unquoteTokens s.toList))


/-! ## `MagnetUtils.decrypt_base64` (main.py lines 41-49) -/

/-- Model of `MagnetUtils.decrypt_base64`: right-pad with `=` to a multiple of 4,
Base64-decode, UTF-8 decode with `errors='ignore'`, then percent-decode.
On any decoding exception the handler logs a warning and returns `""`. -/
def decrypt_base64 (encrypted_str : String) : String :=
  let cs := encrypted_str.toList
  let padded := cs ++ List.replicate ((4 - cs.length % 4) % 4) '='
  match b64DecodePy padded with
  | none => ""
  | some bytes => unquote (String.mk (utf8DecodeWith [] bytes))

/-! ## `MagnetUtils.get_full_url` (main.py lines 51-60) -/

/-- Model of `MagnetUtils.get_full_url`: join a base URL and a relative URL by the
code's prefix rules. -/
def get_full_url (base_url relative_url : String) : String :=
  if relative_url.startsWith "http" then relative_url
  else if relative_url.startsWith "./" then base_url ++ "/" ++ relative_url.drop 2
  else if relative_url.startsWith "/" then base_url ++ relative_url
  else base_url ++ "/" ++ relative_url

/-! ## Data model of the search pipeline -/

/-- Model of `MagnetConfig` (main.py lines 15-36); the fixed captcha cookies and the
client parameters only feed the HTTP oracle and carry no further logic. -/
structure MagnetConfig where
  base_url : String
  search_path : String
  max_results : Nat
  page_size : Nat
  request_timeout : Nat
deriving DecidableEq

/-- An anchor tag as queried by the code: its `href` attribute and its
visible text. -/
structure LinkTag where
  href : String
  text : String
deriving DecidableEq

/-- One `<li>` of the result container, recording exactly the queries the
loop performs on it: whether `li.find("ul", class_="pagination")` finds
something, the first `<a>` whose `href` matches `xq\.php\?key=` (if any),
and `li.text`. -/
structure SearchItem where
  hasPagination : Bool
  linkTag : Option LinkTag
  text : String
deriving DecidableEq

/-- The parsed search page, recording the two queries run on the outer
`soup`: the `<li>` children of `<ul id="Search_list_wrapper">` (or `none`
when the container is absent), and the `href` of the first anchor matching
`magnet:\?xt=urn:btih:` (or `none`). -/
structure Soup where
  resultItems : Option (List SearchItem)
  magnetAnchor : Option String
deriving DecidableEq

/-- One entry of `detail_links` (main.py lines 145-150). -/
structure Candidate where
  url : String
  title : String
  size : String
  create_time : String
deriving DecidableEq

/-! ## Regex scanners used by the pipeline -/

/-- One attempt of `re.search(r"window\.atob\('([^']+)'", s)` at a fixed
position: the literal, then a nonempty run of non-quote characters, then
a closing quote; group 1 is the run. -/
def atobAt (l : List Char) : Option String :=
  match matchLiteral "window.atob('".toList l with
  | none => none
  | some rest =>
    let run := rest.takeWhile (fun c => c ≠ '\'')
    if run.isEmpty then none
    else
      match rest.drop run.length with
      | '\'' :: _ => some (String.mk run)
      | _ => none

/-- Full scan `re.search(r"window\.atob\('([^']+)'", s)`, group 1. -/
def atobExtract (s : String) : Option String := scanFirst atobAt s.toList

/-- Characters matched by `[0-9.]`. -/
def isSizeChar (c : Char) : Bool := c.isDigit || c = '.'

/-- One attempt of `re.search(r"文件大小：([0-9.]+ [GMK]B)", s)` at a fixed
position; group 1 is the whole captured size expression. -/
def sizeAt (l : List Char) : Option String :=
  match matchLiteral "文件大小：".toList l with
  | none => none
  | some rest =>
    let run := rest.takeWhile isSizeChar
    if run.isEmpty then none
    else
      match rest.drop run.length with
      | ' ' :: u :: 'B' :: _ =>
        if u = 'G' || u = 'M' || u = 'K' then some (String.mk (run ++ [' ', u, 'B'])) else none
      | _ => none

/-- Full scan `re.search(r"文件大小：([0-9.]+ [GMK]B)", s)`, group 1. -/
def sizeSearch (s : String) : Option String := scanFirst sizeAt s.toList

/-- One attempt of `re.search(r"创建时间：(\d{4}-\d{2}-\d{2})", s)` at a
fixed position; group 1 is the captured date. -/
def timeAt (l : List Char) : Option String :=
  match matchLiteral "创建时间：".toList l with
  | none => none
  | some rest =>
    match rest with
    | d1 :: d2 :: d3 :: d4 :: '-' :: d5 :: d6 :: '-' :: d7 :: d8 :: _ =>
      if d1.isDigit && d2.isDigit && d3.isDigit && d4.isDigit &&
         d5.isDigit && d6.isDigit && d7.isDigit && d8.isDigit then
        some (String.mk [d1, d2, d3, d4, '-', d5, d6, '-', d7, d8])
      else none
    | _ => none

/-- Full scan `re.search(r"创建时间：(\d{4}-\d{2}-\d{2})", s)`, group 1. -/
def timeSearch (s : String) : Option String := scanFirst timeAt s.toList

/-- Characters matched by `[a-fA-F0-9]`. -/
def isHexChar (c : Char) : Bool := c.isDigit || ('a' ≤ c && c ≤ 'f') || ('A' ≤ c && c ≤ 'F')

/-- One attempt of
`re.search(r"magnet:\?xt=urn:btih:[a-fA-F0-9]{40,}[^\"']*", s)` at a fixed
position: the literal, at least 40 hex characters (greedy), then a greedy
run of non-quote characters. -/
def magnetAt (l : List Char) : Option String :=
  match matchLiteral "magnet:?xt=urn:btih:".toList l with
  | none => none
  | some rest =>
    let hexRun := rest.takeWhile isHexChar
    if hexRun.length < 40 then none
    else
      let tailRun := (rest.drop hexRun.length).takeWhile (fun c => c ≠ '"' && c ≠ '\'')
      some (String.mk ("magnet:?xt=urn:btih:".toList ++ hexRun ++ tailRun))

/-- Full scan `re.search(r"magnet:\?xt=urn:btih:[a-fA-F0-9]{40,}[^\"']*", s)`, whole match. -/
def magnetRegexSearch (s : String) : Option String := scanFirst magnetAt s.toList

/-- The attribute filter `href=re.compile(r"magnet:\?xt=urn:btih:")` used by
`soup.find("a", ...)`: `re.search` of the literal over the `href` value. -/
def hrefMatchesMagnet (href : String) : Bool :=
  (scanFirst (matchLiteral "magnet:?xt=urn:btih:".toList) href.toList).isSome

/-! ## The extraction loop (main.py lines 120-150) -/

/-- The candidate-extraction loop: `idx` is the `enumerate` index over all
`<li>` items (the loop breaks as soon as `idx >= max_results`), and
`processed_urls` is the seen-set of resolved detail URLs. -/
def extractLoop (cfg : MagnetConfig) : List SearchItem → Nat → List String → List Candidate
  | [], _, _ => []
  | li :: rest, idx, processed_urls =>
    if cfg.max_results ≤ idx then []
    else if li.hasPagination then extractLoop cfg rest (idx + 1) processed_urls
    else
      match li.linkTag with
      | none => extractLoop cfg rest (idx + 1) processed_urls
      | some link_tag =>
        let full_url := get_full_url cfg.base_url link_tag.href
        if full_url ∈ processed_urls then extractLoop cfg rest (idx + 1) processed_urls
        else
          let stripped := pyStrip link_tag.text
          let title := if stripped = "" then "搜索结果" ++ toString (idx + 1) else stripped
          let size :=
            match sizeSearch li.text with
            | some m => pyStrip m
            | none => "未知大小"
          let create_time :=
            match timeSearch li.text with
            | some m => pyStrip m
            | none => "未知时间"
          { url := full_url, title := title, size := size, create_time := create_time } ::
            extractLoop cfg rest (idx + 1) (full_url :: processed_urls)

/-- The list `detail_links` as built from the container's `<li>` items. -/
def extractCandidates (cfg : MagnetConfig) (items : List SearchItem) : List Candidate :=
  extractLoop cfg items 0 []

/-! ## Detail-page processing (main.py lines 156-185) -/

/-- Lines 162-165: if the detail body contains a `window.atob('...')`
payload, deobfuscate it; otherwise use the raw body. -/
def detailHtmlOf (detail_raw : String) : String :=
  match atobExtract detail_raw with
  | some payload => decrypt_base64 payload
  | none => detail_raw

/-- The fully formed record of lines 178-183. -/
def formatRecord (c : Candidate) (magnetText : String) : String :=
  "标题：" ++ c.title ++ "\n磁力链接：" ++ magnetText ++ "\n文件大小：" ++ c.size ++
    "\n收录时间：" ++ c.create_time

/-- The degraded record of line 185: `f"标题：{title}\n解析失败：{str(e)[:30]}\n文件大小：{size}"`. -/
def formatDegraded (c : Candidate) (errMsg : String) : String :=
  "标题：" ++ c.title ++ "\n解析失败：" ++ pyTake 30 errMsg ++ "\n文件大小：" ++ c.size

/-- The effect oracles of one `search` call: `get url` models
`await self.client.get(url)` followed by `.text` (an `Except.error e`
models a raised exception with message `str(e)`), and `parse` models
`BeautifulSoup(html, "lxml")` restricted to the queries the code runs. -/
structure Env where
  get : String → Except String String
  parse : String → Soup

/-- The per-candidate body (lines 156-185), including its `try/except`:
fetch the detail page, deobfuscate it if needed, pick the magnet link by
the fallback chain — first the anchor of the *outer* `soup`, then the
regex over the detail HTML — and format the record; any exception yields
the degraded record with the error message truncated to 30 characters.
Note `magnet_link or '未提取到'` treats both `None` and `""` as missing. -/
def processCandidate (env : Env) (soup : Soup) (link : Candidate) : String :=
  match env.get link.url with
  | Except.error e => formatDegraded link e
  | Except.ok detail_raw =>
    let detail_html := detailHtmlOf detail_raw
    let m1 : Option String := soup.magnetAnchor.map pyStrip
    let magnet_link : Option String :=
      if m1 = none ∨ m1 = some "" then
        match magnetRegexSearch detail_html with
        | some m => some (pyStrip m)
        | none => m1
      else m1
    formatRecord link
      (match magnet_link with
       | some s => if s = "" then "未提取到" else s
       | none => "未提取到")

/-- Line 94: `f"{base_url}{search_path}?name={urllib.parse.quote(keyword)}"`. -/
def searchUrl (cfg : MagnetConfig) (keyword : String) : String :=
  cfg.base_url ++ cfg.search_path ++ "?name=" ++ percentEncode keyword

/-- The `httpx.AsyncClient` that `_init_client` (lines 68-85) assigns to
`self.client`: the construction parameters it is built with; the network
behaviour itself lives in the `Env` oracle. -/
structure HttpClient where
  timeout : Nat
  follow_redirects : Bool
  verify : Bool
deriving DecidableEq

/-- Model of `_init_client` (lines 68-85): the client `self.client` is set to. -/
def init_client (cfg : MagnetConfig) : HttpClient :=
  { timeout := cfg.request_timeout, follow_redirects := false, verify := false }

/-- The distinct exits of the `try` statement of `search`: the three early
`return []` statements (lines 108, 118 and 153), normal completion of the
candidate loop (falling through to line 194), and an exception escaping
the try block, caught by the `except` clause at line 187 — in this model
the initial GET raising. -/
inductive SearchExit where
  | noPayloadMarker
  | noResultContainer
  | noCandidates
  | processed (records : List String)
  | outerException (e : String)
deriving DecidableEq

/-- The `try` block of `MagnetSearchService.search` (lines 92-185), with
each way of leaving it made an explicit `SearchExit`: extract and decode
the `window.atob` payload (absent marker → `noPayloadMarker`), parse,
find the result container (absent → `noResultContainer`), extract
candidates (none → `noCandidates`), and process each candidate in order. -/
def searchExit (cfg : MagnetConfig) (env : Env) (keyword : String) : SearchExit :=
  match env.get (searchUrl cfg keyword) with
  | Except.error e => SearchExit.outerException e
  | Except.ok raw_html =>
    match atobExtract raw_html with
    | none => SearchExit.noPayloadMarker
    | some payload =>
      let decrypted_html := decrypt_base64 payload
      let soup := env.parse decrypted_html
      match soup.resultItems with
      | none => SearchExit.noResultContainer
      | some items =>
        let detail_links := extractCandidates cfg items
        if detail_links.isEmpty then SearchExit.noCandidates
        else SearchExit.processed (detail_links.map (processCandidate env soup))

/-- The value `search` returns for each exit of its try statement: the
early returns give `[]`, normal completion gives the accumulated records,
and the `except` clause (lines 187-189) turns the caught exception into
the single truncated failure record. -/
def resultsOfExit : SearchExit → List String
  | SearchExit.noPayloadMarker => []
  | SearchExit.noResultContainer => []
  | SearchExit.noCandidates => []
  | SearchExit.processed records => records
  | SearchExit.outerException e => ["搜索失败：" ++ pyTake 50 e]

/-- Model of the `finally` clause (lines 190-192):
`if self.client: await self.client.aclose()` — the client is closed
exactly when it is set. -/
def finallyClose (client : Option HttpClient) : Bool :=
  match client with
  | some _ => true
  | none => false

/-- Observable outcome of one `search` call: the returned records and
whether the HTTP client was closed. -/
structure SearchRun where
  results : List String
  clientClosed : Bool

/-- Composition of one exit of the try statement with the `except` and
`finally` clauses.  Python runs `finally` on every exit of the try
statement, so each of the five exits is composed with `finallyClose`
separately — one arm per textual exit path of the program. -/
def finishSearch (client : Option HttpClient) : SearchExit → SearchRun
  | SearchExit.noPayloadMarker =>
    { results := [], clientClosed := finallyClose client }
  | SearchExit.noResultContainer =>
    { results := [], clientClosed := finallyClose client }
  | SearchExit.noCandidates =>
    { results := [], clientClosed := finallyClose client }
  | SearchExit.processed records =>
    { results := records, clientClosed := finallyClose client }
  | SearchExit.outerException e =>
    { results := ["搜索失败：" ++ pyTake 50 e], clientClosed := finallyClose client }

/-- The records of the `try`/`except` part of `search` (lines 92-189). -/
def searchTry (cfg : MagnetConfig) (env : Env) (keyword : String) : List String :=
  resultsOfExit (searchExit cfg env keyword)

/-- Model of `MagnetSearchService.search` (lines 87-194): `_init_client`
assigns `self.client`, the try block runs to one of its exits, and the
`except`/`finally` clauses are applied to that exit. -/
def search (cfg : MagnetConfig) (env : Env) (keyword : String) : SearchRun :=
  finishSearch (some (init_client cfg)) (searchExit cfg env keyword)

/-! ## Concrete inputs for witnesses and counterexamples, and auxiliary encodings -/

/-- Configuration used by the C3 counterexample: `max_results = 1`. -/
def cfgMaxOne : MagnetConfig :=
  { base_url := "https://x", search_path := "/s", max_results := 1,
    page_size := 5, request_timeout := 15 }

/-- A pagination-noise list item (it is skipped by the loop). -/
def noiseItem : SearchItem :=
  { hasPagination := true, linkTag := some { href := "/xq.php?key=1", text := "noise" }, text := "" }

/-- A qualifying list item (a detail link, no pagination sub-list). -/
def qualItem : SearchItem :=
  { hasPagination := false, linkTag := some { href := "/xq.php?key=2", text := "t2" }, text := "" }

/-- Configuration for the concrete witnesses (the plugin defaults). -/
def cfgW : MagnetConfig :=
  { base_url := "https://x", search_path := "/s", max_results := 20,
    page_size := 5, request_timeout := 15 }

/-- The long exception message of spec test 8. -/
def longErrW : String :=
  "connection reset by peer, this is a very long message exceeding fifty chars"

/-- Environment whose initial request always raises `longErrW`. -/
def envFail : Env :=
  { get := fun _ => Except.error longErrW, parse := fun _ => { resultItems := none, magnetAnchor := none } }

/-- Environment returning a page without any payload marker. -/
def envNoAtob : Env :=
  { get := fun _ => Except.ok "no results page",
    parse := fun _ => { resultItems := none, magnetAnchor := none } }

/-- First result item of the witness page. -/
def itemA : SearchItem :=
  { hasPagination := false, linkTag := some { href := "/xq.php?key=a", text := "A" },
    text := "文件大小：1.0 GB创建时间：2021-01-01" }

/-- Second result item of the witness page (its detail fetch will fail). -/
def itemB : SearchItem :=
  { hasPagination := false, linkTag := some { href := "/xq.php?key=b", text := "B" },
    text := "" }

/-- Third result item of the witness page. -/
def itemC : SearchItem :=
  { hasPagination := false, linkTag := some { href := "/xq.php?key=c", text := "C" },
    text := "" }

/-- Parsed witness page: three qualifying items, no magnet anchor. -/
def soupIso : Soup := { resultItems := some [itemA, itemB, itemC], magnetAnchor := none }

/-- Raw witness response carrying an obfuscated payload. -/
def pageIso : String := "window.atob('QQ==')"

/-- Environment for the C2 witness: the search GET succeeds, the detail GET
of the second candidate raises, the other detail GETs succeed. -/
def envIso : Env :=
  { get := fun u =>
      if u = "https://x/xq.php?key=b" then
        Except.error "boom middle candidate failure message way over thirty"
      else if u = "https://x/s?name=kw" then Except.ok pageIso
      else Except.ok "detail page",
    parse := fun _ => soupIso }

/-- Candidate used by the C4 witness. -/
def candW : Candidate :=
  { url := "https://x/xq.php?key=a", title := "A", size := "1.0 GB", create_time := "2021-01-01" }

/-- Anchor href used by the C4/C5 witnesses. -/
def hrefW : String := "magnet:?xt=urn:btih:aa"

/-- Outer soup holding a magnet anchor. -/
def soupAnchor : Soup := { resultItems := some [], magnetAnchor := some hrefW }

/-- Environment whose detail fetches all succeed. -/
def envDetailOk : Env := { get := fun _ => Except.ok "detail body", parse := fun _ => soupAnchor }

/-- Outer soup of the C5 witness: two qualifying items and a magnet anchor. -/
def soupScope : Soup := { resultItems := some [itemA, itemB], magnetAnchor := some hrefW }

/-- Environment of the C5 witness: every GET returns the obfuscated page. -/
def envScope : Env := { get := fun _ => Except.ok pageIso, parse := fun _ => soupScope }

/-- The site strips the `=` padding from its Base64 payloads; this is
`str.rstrip('=')`. -/
def stripPadEq (l : List Char) : List Char := (l.reverse.dropWhile (fun c => c = '=')).reverse

/-- Number of `=` padding characters `b64encode` appends. -/
def b64PadLen (bs : List Nat) : Nat := (3 - bs.length % 3) % 3

/-- The token `unquote` sees for one byte produced by `quote`. -/
def tokOfByte (b : Nat) : PctTok :=
  if safeByte b then PctTok.lit (Char.ofNat b) else PctTok.byte b

/-- Is the character left unescaped by `quote`? -/
def safeChar (c : Char) : Bool := safeByte c.toNat

/-- The tokens `unquote` sees for one character quoted by `quote`. -/
def tokOfChar (c : Char) : List PctTok :=
  if safeChar c then [PctTok.lit c] else (utf8EncodeChar c).map PctTok.byte

/-! ## General helper lemmas -/

theorem String.mk_toList (s : String) : String.mk s.toList = s := by
  cases s
  rfl

theorem pyTake_length_le (n : Nat) (s : String) : (pyTake n s).length ≤ n := by
  show (s.toList.take n).length ≤ n
  simp

/-! ## C1: bound and distinctness of the candidate list -/

theorem extractLoop_length_le (cfg : MagnetConfig) (items : List SearchItem) :
    ∀ (idx : Nat) (proc : List String),
      (extractLoop cfg items idx proc).length ≤ cfg.max_results - idx := by
  induction items with
  | nil => intro idx proc; simp [extractLoop]
  | cons li rest ih =>
    intro idx proc
    simp only [extractLoop]
    split
    · simp
    · rename_i hidx
      split
      · exact Nat.le_trans (ih _ _) (by omega)
      · split
        · exact Nat.le_trans (ih _ _) (by omega)
        · rename_i link_tag heq
          split
          · exact Nat.le_trans (ih _ _) (by omega)
          · simp only [List.length_cons]
            have := ih (idx + 1) (get_full_url cfg.base_url link_tag.href :: proc)
            omega

theorem extractLoop_urls_nodup (cfg : MagnetConfig) (items : List SearchItem) :
    ∀ (idx : Nat) (proc : List String),
      ((extractLoop cfg items idx proc).map Candidate.url).Nodup ∧
      ∀ u ∈ (extractLoop cfg items idx proc).map Candidate.url, u ∉ proc := by
  induction items with
  | nil => intro idx proc; simp [extractLoop]
  | cons li rest ih =>
    intro idx proc
    simp only [extractLoop]
    split
    · simp
    · split
      · exact ih _ _
      · split
        · exact ih _ _
        · rename_i link_tag heq
          split
          · exact ih _ _
          · rename_i hmem
            obtain ⟨h1, h2⟩ := ih (idx + 1) (get_full_url cfg.base_url link_tag.href :: proc)
            refine ⟨?_, ?_⟩
            · simp only [List.map_cons, List.nodup_cons]
              refine ⟨fun hc => ?_, h1⟩
              exact (h2 _ hc) (List.mem_cons_self _ _)
            · intro u hu
              simp only [List.map_cons, List.mem_cons] at hu
              rcases hu with rfl | hu
              · exact hmem
              · intro hp
                exact (h2 u hu) (List.mem_cons_of_mem _ hp)

/-- C1: for every decoded search page processed by `MagnetSearchService.search`,
the candidate list built in the extraction loop has at most
`config.max_results` entries, and the resolved absolute detail URLs of its
entries are pairwise distinct, regardless of the number of list items or of
shared detail URLs. -/
theorem candidate_list_bounded_and_distinct (cfg : MagnetConfig) (items : List SearchItem) :
    (extractCandidates cfg items).length ≤ cfg.max_results ∧
    ((extractCandidates cfg items).map Candidate.url).Nodup := by
  constructor
  · have := extractLoop_length_le cfg items 0 []
    simpa [extractCandidates] using this
  · exact (extractLoop_urls_nodup cfg items 0 []).1

/-! ## C3: which items count toward the `max_results` limit -/

/-- C3 counterexample: with `max_results = 1`, a page whose first item is
pagination noise and whose second item qualifies yields no candidate at
all — the skipped item consumed the limit, so the loop did not stop "only
once one qualifying item had been examined".  The same qualifying item
alone yields a candidate. -/
theorem skipped_items_consume_limit :
    extractCandidates cfgMaxOne [noiseItem, qualItem] = [] ∧
    noiseItem.hasPagination = true ∧
    qualItem.hasPagination = false ∧
    qualItem.linkTag.isSome = true ∧
    extractCandidates cfgMaxOne [qualItem] ≠ [] := by
  decide

theorem extractLoop_take (cfg : MagnetConfig) (items : List SearchItem) :
    ∀ (idx : Nat) (proc : List String),
      extractLoop cfg items idx proc =
        extractLoop cfg (items.take (cfg.max_results - idx)) idx proc := by
  induction items with
  | nil => intro idx proc; simp
  | cons li rest ih =>
    intro idx proc
    by_cases hidx : cfg.max_results ≤ idx
    · have h0 : cfg.max_results - idx = 0 := by omega
      rw [h0, List.take_zero]
      simp only [extractLoop]
      rw [if_pos hidx]
    · have hk : cfg.max_results - idx = (cfg.max_results - (idx + 1)) + 1 := by omega
      rw [hk, List.take_succ_cons]
      simp only [extractLoop]
      rw [if_neg hidx, if_neg hidx]
      by_cases hp : li.hasPagination
      · rw [if_pos hp, if_pos hp]
        exact ih _ _
      · rw [if_neg hp, if_neg hp]
        cases hlt : li.linkTag with
        | none =>
          simp only [hlt]
          exact ih _ _
        | some link_tag =>
          simp only [hlt]
          by_cases hmem : get_full_url cfg.base_url link_tag.href ∈ proc
          · rw [if_pos hmem, if_pos hmem]
            exact ih _ _
          · rw [if_neg hmem, if_neg hmem]
            rw [ih]

/-- C3 amended: the extraction loop stops once `config.max_results` list
items in total have been enumerated — skipped items (pagination noise,
items without an `xq.php?key=` link, duplicate URLs) do count toward the
limit, so only the first `max_results` items of the container are ever
examined. -/
theorem extraction_examines_first_max_items (cfg : MagnetConfig) (items : List SearchItem) :
    extractCandidates cfg items = extractCandidates cfg (items.take cfg.max_results) := by
  have := extractLoop_take cfg items 0 []
  simpa [extractCandidates] using this

/-! ## C10: the HTTP client is closed on every path -/

/-- C10: every call to `search` closes the client it opened, on every code
path — `_init_client` assigns the client before the `try`, and the
`finally` clause (`if self.client: await self.client.aclose()`), which
Python runs on every exit of the try statement, closes it.  The second
conjunct states the path property itself: for each of the five exits of
the try statement (the three early `return []`, normal completion with
any record list, and a handled exception with any message), the
composition with the `finally` clause leaves the opened client closed. -/
theorem client_always_closed (cfg : MagnetConfig) (env : Env) (keyword : String) :
    (search cfg env keyword).clientClosed = true ∧
    ∀ ex : SearchExit, (finishSearch (some (init_client cfg)) ex).clientClosed = true := by
  constructor
  · show (finishSearch (some (init_client cfg)) (searchExit cfg env keyword)).clientClosed = true
    cases searchExit cfg env keyword <;> rfl
  · intro ex
    cases ex <;> rfl

/-! ## Success-path characterisation of `search` -/

theorem finishSearch_results (client : Option HttpClient) (ex : SearchExit) :
    (finishSearch client ex).results = resultsOfExit ex := by
  cases ex <;> rfl

theorem search_results (cfg : MagnetConfig) (env : Env) (keyword : String) :
    (search cfg env keyword).results = searchTry cfg env keyword :=
  finishSearch_results (some (init_client cfg)) (searchExit cfg env keyword)

theorem searchTry_success (cfg : MagnetConfig) (env : Env) (keyword : String)
    (raw payload : String) (soup : Soup) (items : List SearchItem)
    (hok : env.get (searchUrl cfg keyword) = Except.ok raw)
    (hatob : atobExtract raw = some payload)
    (hsoup : env.parse (decrypt_base64 payload) = soup)
    (hitems : soup.resultItems = some items) :
    searchTry cfg env keyword = (extractCandidates cfg items).map (processCandidate env soup) := by
  by_cases hE : extractCandidates cfg items = []
  · simp [searchTry, searchExit, resultsOfExit, hok, hatob, hsoup, hitems, hE]
  · simp [searchTry, searchExit, resultsOfExit, hok, hatob, hsoup, hitems, hE]

/-! ## C6: top-level failure handling -/

/-- C6: if the initial request raises, `search` returns exactly one record,
the exception message truncated to at most 50 characters and formatted as a
top-level search failure; the exception is not propagated (the model is a
total function). -/
theorem top_level_failure (cfg : MagnetConfig) (env : Env) (keyword : String) (e : String)
    (h : env.get (searchUrl cfg keyword) = Except.error e) :
    (search cfg env keyword).results = ["搜索失败：" ++ pyTake 50 e] ∧
    (pyTake 50 e).length ≤ 50 := by
  constructor
  · rw [search_results]
    simp [searchTry, searchExit, resultsOfExit, h]
  · exact pyTake_length_le 50 e

theorem top_level_failure_witness :
    (search cfgW envFail "kw").results = ["搜索失败：" ++ pyTake 50 longErrW] ∧
    (pyTake 50 longErrW).length ≤ 50 :=
  top_level_failure cfgW envFail "kw" longErrW rfl

/-! ## C7: empty-result paths -/

/-- C7: when the response has no `window.atob('...')` payload marker, or the
decoded HTML has no `Search_list_wrapper` container, or no candidate
survives the extraction loop, `search` returns an empty sequence (and, the
model being total, raises nothing). -/
theorem empty_result_paths (cfg : MagnetConfig) (env : Env) (keyword : String) (raw : String)
    (hok : env.get (searchUrl cfg keyword) = Except.ok raw)
    (hcase :
      atobExtract raw = none ∨
      (∃ payload, atobExtract raw = some payload ∧
        (env.parse (decrypt_base64 payload)).resultItems = none) ∨
      (∃ payload items, atobExtract raw = some payload ∧
        (env.parse (decrypt_base64 payload)).resultItems = some items ∧
        extractCandidates cfg items = [])) :
    (search cfg env keyword).results = [] := by
  rcases hcase with h | ⟨p, hp, hitems⟩ | ⟨p, items, hp, hitems, hcs⟩
  · rw [search_results]
    simp [searchTry, searchExit, resultsOfExit, hok, h]
  · rw [search_results]
    simp [searchTry, searchExit, resultsOfExit, hok, hp, hitems]
  · rw [search_results]
    simp [searchTry, searchExit, resultsOfExit, hok, hp, hitems, hcs]

theorem empty_result_paths_witness :
    (search cfgW envNoAtob "kw").results = [] :=
  empty_result_paths cfgW envNoAtob "kw" "no results page" rfl (Or.inl (by decide))

/-! ## C2: one record per candidate, per-candidate failure isolation -/

/-- C2: on the success path the returned sequence is exactly the map of the
per-candidate processing over the candidate list — one record per
candidate, in candidate order; a candidate whose detail fetch raises gets
the degraded record (title, error truncated to ≤ 30 characters, size),
computed from that candidate alone, while a candidate whose fetch succeeds
gets the fully formed record. -/
theorem per_candidate_isolation (cfg : MagnetConfig) (env : Env) (keyword : String)
    (raw payload : String) (soup : Soup) (items : List SearchItem)
    (hok : env.get (searchUrl cfg keyword) = Except.ok raw)
    (hatob : atobExtract raw = some payload)
    (hsoup : env.parse (decrypt_base64 payload) = soup)
    (hitems : soup.resultItems = some items) :
    (search cfg env keyword).results =
      (extractCandidates cfg items).map (processCandidate env soup) ∧
    (search cfg env keyword).results.length = (extractCandidates cfg items).length ∧
    (∀ c e, env.get c.url = Except.error e →
      processCandidate env soup c = formatDegraded c e ∧ (pyTake 30 e).length ≤ 30) ∧
    (∀ c r, env.get c.url = Except.ok r →
      ∃ m, processCandidate env soup c = formatRecord c m) := by
  have hmap : (search cfg env keyword).results =
      (extractCandidates cfg items).map (processCandidate env soup) :=
    (search_results cfg env keyword).trans
      (searchTry_success cfg env keyword raw payload soup items hok hatob hsoup hitems)
  refine ⟨hmap, ?_, ?_, ?_⟩
  · rw [hmap, List.length_map]
  · intro c e h
    exact ⟨by simp [processCandidate, h], pyTake_length_le 30 e⟩
  · intro c r h
    unfold processCandidate
    rw [h]
    exact ⟨_, rfl⟩

theorem per_candidate_isolation_witness :
    (search cfgW envIso "kw").results =
      (extractCandidates cfgW [itemA, itemB, itemC]).map (processCandidate envIso soupIso) :=
  (per_candidate_isolation cfgW envIso "kw" pageIso "QQ==" soupIso [itemA, itemB, itemC]
    rfl (by decide) rfl rfl).1

/-! ## Scanner lemmas -/

theorem matchLiteral_eq_some :
    ∀ (p l r : List Char), matchLiteral p l = some r → l = p ++ r := by
  intro p
  induction p with
  | nil =>
    intro l r h
    simp only [matchLiteral, Option.some.injEq] at h
    simp [h]
  | cons x xs ih =>
    intro l r h
    cases l with
    | nil => simp [matchLiteral] at h
    | cons c cs =>
      simp only [matchLiteral] at h
      split at h
      · rename_i hcx
        have := ih cs r h
        simp [this, hcx]
      · exact absurd h (by simp)

theorem scanFirst_eq_some (f : List Char → Option α) :
    ∀ (l : List Char) (x : α), scanFirst f l = some x → ∃ l', l' <:+ l ∧ f l' = some x := by
  intro l
  induction l with
  | nil =>
    intro x h
    exact ⟨[], List.suffix_refl [], h⟩
  | cons c cs ih =>
    intro x h
    simp only [scanFirst] at h
    cases hf : f (c :: cs) with
    | some y =>
      rw [hf] at h
      simp only [Option.orElse] at h
      exact ⟨c :: cs, List.suffix_refl _, by rw [hf, h]⟩
    | none =>
      rw [hf] at h
      simp only [Option.orElse] at h
      obtain ⟨l', hsuf, hfl⟩ := ih x h
      exact ⟨l', hsuf.trans (List.suffix_cons c cs), hfl⟩

theorem pyStrip_ne_empty_of_mem (s : String) (c : Char)
    (hc : c ∈ s.toList) (hw : isPyWs c = false) : pyStrip s ≠ "" := by
  intro h
  have hl : ((s.toList.dropWhile isPyWs).reverse.dropWhile isPyWs).reverse = [] := by
    have := congrArg String.toList h
    simpa [pyStrip] using this
  rw [List.reverse_eq_nil_iff] at hl
  have h2 := List.dropWhile_eq_nil_iff.mp hl
  have h3 : ∀ x ∈ s.toList.dropWhile isPyWs, isPyWs x = true := by
    intro x hx
    exact h2 x (List.mem_reverse.mpr hx)
  have h5 : ∀ x ∈ s.toList, isPyWs x = true := by
    intro x hx
    rw [← List.takeWhile_append_dropWhile isPyWs s.toList] at hx
    rcases List.mem_append.mp hx with hx | hx
    · exact List.mem_takeWhile_imp hx
    · exact h3 x hx
  rw [h5 c hc] at hw
  exact Bool.noConfusion hw

theorem hrefMatchesMagnet_strip_ne (href : String)
    (h : hrefMatchesMagnet href = true) : pyStrip href ≠ "" := by
  have hs : (scanFirst (matchLiteral "magnet:?xt=urn:btih:".toList) href.toList).isSome = true := h
  rw [Option.isSome_iff_exists] at hs
  obtain ⟨r, hr⟩ := hs
  obtain ⟨l', hsuf, hfl⟩ := scanFirst_eq_some _ _ _ hr
  have hl' := matchLiteral_eq_some _ _ _ hfl
  have hm : 'm' ∈ l' := by
    rw [hl']
    exact List.mem_append_left _ (by decide)
  exact pyStrip_ne_empty_of_mem href 'm' (hsuf.subset hm) (by decide)

theorem magnetRegexSearch_strip_ne (s m : String)
    (h : magnetRegexSearch s = some m) : pyStrip m ≠ "" := by
  obtain ⟨l', _, hfl⟩ := scanFirst_eq_some _ _ _ h
  have hm : 'm' ∈ m.toList := by
    unfold magnetAt at hfl
    cases hml : matchLiteral "magnet:?xt=urn:btih:".toList l' with
    | none => rw [hml] at hfl; exact absurd hfl (by simp)
    | some rest =>
      rw [hml] at hfl
      simp only at hfl
      split at hfl
      · exact absurd hfl (by simp)
      · have := Option.some.inj hfl
        rw [← this]
        show 'm' ∈ ("magnet:?xt=urn:btih:".toList ++ _ ++ _)
        exact List.mem_append_left _ (List.mem_append_left _ (by decide))
  exact pyStrip_ne_empty_of_mem m 'm' hm (by decide)

/-- When the outer soup holds a magnet anchor whose stripped href is
nonempty, a successfully fetched candidate's record always carries that
stripped href. -/
theorem processCandidate_anchor (env : Env) (soup : Soup) (c : Candidate) (raw href : String)
    (h : env.get c.url = Except.ok raw) (ha : soup.magnetAnchor = some href)
    (hne : pyStrip href ≠ "") :
    processCandidate env soup c = formatRecord c (pyStrip href) := by
  unfold processCandidate
  rw [h, ha]
  simp [hne]

/-! ## C4: the magnet-URI fallback chain -/

/-- C4: per candidate with a successful detail fetch, the magnet text is
chosen by the fallback chain — if the outer parsed document holds an
anchor whose href matches `magnet:\?xt=urn:btih:`, that href (stripped) is
used; only when no such anchor exists is the detail HTML scanned with the
regex requiring at least 40 hex characters, whose stripped match is then
used; if both fail the record carries the placeholder `未提取到`. -/
theorem magnet_fallback_chain (env : Env) (soup : Soup) (c : Candidate) (raw : String)
    (h : env.get c.url = Except.ok raw) :
    (∀ href, soup.magnetAnchor = some href → hrefMatchesMagnet href = true →
      processCandidate env soup c = formatRecord c (pyStrip href)) ∧
    (soup.magnetAnchor = none →
      ∀ m, magnetRegexSearch (detailHtmlOf raw) = some m →
        processCandidate env soup c = formatRecord c (pyStrip m)) ∧
    (soup.magnetAnchor = none → magnetRegexSearch (detailHtmlOf raw) = none →
      processCandidate env soup c = formatRecord c "未提取到") := by
  refine ⟨?_, ?_, ?_⟩
  · intro href ha hmatch
    exact processCandidate_anchor env soup c raw href h ha (hrefMatchesMagnet_strip_ne href hmatch)
  · intro ha m hm
    unfold processCandidate
    rw [h, ha]
    simp [hm, magnetRegexSearch_strip_ne _ _ hm]
  · intro ha hm
    unfold processCandidate
    rw [h, ha]
    simp [hm]

theorem magnet_fallback_chain_witness :
    processCandidate envDetailOk soupAnchor candW = formatRecord candW (pyStrip hrefW) :=
  (magnet_fallback_chain envDetailOk soupAnchor candW "detail body" rfl).1 hrefW rfl (by decide)

/-! ## C5: the anchor lookup always scans the outer soup -/

/-- C5: the anchor lookup of the magnet-extraction step runs on the one
parse tree built from the outer search page (`soup` at line 169 is the
object built at line 114, never the detail page); hence, whenever that
outer tree holds a matching magnet anchor and every detail fetch succeeds,
every record of the returned sequence carries that same stripped href —
the conclusion does not depend on any detail-page body. -/
theorem outer_soup_magnet_scope (cfg : MagnetConfig) (env : Env) (keyword : String)
    (raw payload href : String) (soup : Soup) (items : List SearchItem)
    (hok : env.get (searchUrl cfg keyword) = Except.ok raw)
    (hatob : atobExtract raw = some payload)
    (hsoup : env.parse (decrypt_base64 payload) = soup)
    (hitems : soup.resultItems = some items)
    (hanchor : soup.magnetAnchor = some href)
    (hmatch : hrefMatchesMagnet href = true)
    (hdetail : ∀ c ∈ extractCandidates cfg items, ∃ r, env.get c.url = Except.ok r) :
    (search cfg env keyword).results =
      (extractCandidates cfg items).map (fun c => formatRecord c (pyStrip href)) := by
  have hmap : (search cfg env keyword).results =
      (extractCandidates cfg items).map (processCandidate env soup) :=
    (search_results cfg env keyword).trans
      (searchTry_success cfg env keyword raw payload soup items hok hatob hsoup hitems)
  rw [hmap]
  apply List.map_congr_left
  intro c hc
  obtain ⟨r, hr⟩ := hdetail c hc
  exact processCandidate_anchor env soup c r href hr hanchor (hrefMatchesMagnet_strip_ne href hmatch)

theorem outer_soup_magnet_scope_witness :
    (search cfgW envScope "kw").results =
      (extractCandidates cfgW [itemA, itemB]).map (fun c => formatRecord c (pyStrip hrefW)) :=
  outer_soup_magnet_scope cfgW envScope "kw" pageIso "QQ==" hrefW soupScope [itemA, itemB]
    rfl (by decide) rfl rfl rfl (by decide) (fun c _ => ⟨pageIso, rfl⟩)

/-! ## C9: behaviour of `decrypt_base64` on malformed input -/

theorem utf8DecodeAux_fuel (repl : List Char) :
    ∀ (f1 : Nat) (l : List Nat), l.length ≤ f1 → ∀ (f2 : Nat), l.length ≤ f2 →
      utf8DecodeAux repl f1 l = utf8DecodeAux repl f2 l := by
  intro f1
  induction f1 with
  | zero =>
    intro l hl f2 h2
    cases l with
    | nil => cases f2 <;> rfl
    | cons b rest => simp at hl
  | succ f ih =>
    intro l hl f2 h2
    cases l with
    | nil => cases f2 <;> rfl
    | cons b rest =>
      cases f2 with
      | zero => simp at h2
      | succ f2' =>
        simp only [utf8DecodeAux]
        simp only [List.length_cons] at hl h2
        cases hstep : utf8StepLen b rest with
        | some k =>
          simp only [hstep]
          have hdl := List.length_drop k rest
          exact congrArg _ (ih _ (by omega) _ (by omega))
        | none =>
          simp only [hstep]
          exact congrArg _ (ih _ (by omega) _ (by omega))

theorem utf8DecodeWith_encodeChar (repl : List Char) (c : Char) (rest : List Nat) :
    utf8DecodeWith repl (utf8EncodeChar c ++ rest) = c :: utf8DecodeWith repl rest := by
  have hv : c.toNat < 0xD800 ∨ (0xDFFF < c.toNat ∧ c.toNat < 0x110000) := c.valid
  have hofn : Char.ofNat c.toNat = c := Char.ofNat_toNat c
  have hn1114 : c.toNat < 0x110000 := by omega
  by_cases h1 : c.toNat < 0x80
  · have henc : utf8EncodeChar c = [c.toNat] := by
      simp only [utf8EncodeChar]
      rw [if_pos h1]
    rw [henc]
    have hstep : utf8StepLen c.toNat rest = some 0 := by
      unfold utf8StepLen
      rw [if_pos h1]
    show utf8DecodeAux repl ([c.toNat] ++ rest).length ([c.toNat] ++ rest) = _
    simp only [List.singleton_append, List.append_eq, List.nil_append, List.length_cons,
      utf8DecodeAux, hstep, List.take_zero, List.drop_zero, utf8Scalar, hofn, utf8DecodeWith]
  · by_cases h2 : c.toNat < 0x800
    · have henc : utf8EncodeChar c = [0xC0 + c.toNat / 64, 0x80 + c.toNat % 64] := by
        simp only [utf8EncodeChar]
        rw [if_neg h1, if_pos h2]
      rw [henc]
      have hcont : isContByte (0x80 + c.toNat % 64) = true := by
        simp only [isContByte, Bool.and_eq_true, decide_eq_true_eq]
        omega
      have hstep : utf8StepLen (0xC0 + c.toNat / 64) ((0x80 + c.toNat % 64) :: rest) = some 1 := by
        unfold utf8StepLen
        rw [if_neg (by omega), if_pos (by omega)]
        simp [hcont]
      show utf8DecodeAux repl
        (((0xC0 + c.toNat / 64) :: (0x80 + c.toNat % 64) :: rest).length)
        ((0xC0 + c.toNat / 64) :: (0x80 + c.toNat % 64) :: rest) = _
      simp only [List.length_cons, utf8DecodeAux, hstep, List.take_succ_cons, List.take_zero,
        List.drop_succ_cons, List.drop_zero, utf8Scalar]
      have hsc : (0xC0 + c.toNat / 64 - 0xC0) * 64 + (0x80 + c.toNat % 64 - 0x80) = c.toNat := by
        omega
      rw [hsc, hofn]
      exact congrArg _ (utf8DecodeAux_fuel repl _ rest (by omega) _ (Nat.le_refl _))
    · by_cases h3 : c.toNat < 0x10000
      · have henc : utf8EncodeChar c =
            [0xE0 + c.toNat / 4096, 0x80 + c.toNat / 64 % 64, 0x80 + c.toNat % 64] := by
          simp only [utf8EncodeChar]
          rw [if_neg h1, if_neg h2, if_pos h3]
        rw [henc]
        have hcond : ((if 0xE0 + c.toNat / 4096 = 0xE0 then
              decide (0xA0 ≤ 0x80 + c.toNat / 64 % 64) && decide (0x80 + c.toNat / 64 % 64 < 0xC0)
            else if 0xE0 + c.toNat / 4096 = 0xED then
              decide (0x80 ≤ 0x80 + c.toNat / 64 % 64) && decide (0x80 + c.toNat / 64 % 64 < 0xA0)
            else isContByte (0x80 + c.toNat / 64 % 64)) &&
            isContByte (0x80 + c.toNat % 64)) = true := by
          split_ifs with hE hD
          · simp only [isContByte, Bool.and_eq_true, decide_eq_true_eq]
            omega
          · simp only [isContByte, Bool.and_eq_true, decide_eq_true_eq]
            rcases hv with hv | hv <;> omega
          · simp only [isContByte, Bool.and_eq_true, decide_eq_true_eq]
            omega
        have hstep : utf8StepLen (0xE0 + c.toNat / 4096)
            ((0x80 + c.toNat / 64 % 64) :: (0x80 + c.toNat % 64) :: rest) = some 2 := by
          unfold utf8StepLen
          rw [if_neg (by omega), if_neg (by omega), if_pos (by omega)]
          exact if_pos hcond
        show utf8DecodeAux repl
          (((0xE0 + c.toNat / 4096) :: (0x80 + c.toNat / 64 % 64) :: (0x80 + c.toNat % 64) ::
            rest).length)
          ((0xE0 + c.toNat / 4096) :: (0x80 + c.toNat / 64 % 64) :: (0x80 + c.toNat % 64) ::
            rest) = _
        simp only [List.length_cons, utf8DecodeAux, hstep, List.take_succ_cons, List.take_zero,
          List.drop_succ_cons, List.drop_zero, utf8Scalar]
        have hsc : (0xE0 + c.toNat / 4096 - 0xE0) * 4096 + (0x80 + c.toNat / 64 % 64 - 0x80) * 64 +
            (0x80 + c.toNat % 64 - 0x80) = c.toNat := by
          omega
        rw [hsc, hofn]
        exact congrArg _ (utf8DecodeAux_fuel repl _ rest (by omega) _ (Nat.le_refl _))
      · have henc : utf8EncodeChar c =
            [0xF0 + c.toNat / 262144, 0x80 + c.toNat / 4096 % 64, 0x80 + c.toNat / 64 % 64,
             0x80 + c.toNat % 64] := by
          simp only [utf8EncodeChar]
          rw [if_neg h1, if_neg h2, if_neg h3]
        rw [henc]
        have hcond : ((if 0xF0 + c.toNat / 262144 = 0xF0 then
              decide (0x90 ≤ 0x80 + c.toNat / 4096 % 64) &&
                decide (0x80 + c.toNat / 4096 % 64 < 0xC0)
            else if 0xF0 + c.toNat / 262144 = 0xF4 then
              decide (0x80 ≤ 0x80 + c.toNat / 4096 % 64) &&
                decide (0x80 + c.toNat / 4096 % 64 < 0x90)
            else isContByte (0x80 + c.toNat / 4096 % 64)) &&
            isContByte (0x80 + c.toNat / 64 % 64) && isContByte (0x80 + c.toNat % 64)) = true := by
          split_ifs with hE hD
          · simp only [isContByte, Bool.and_eq_true, decide_eq_true_eq]
            omega
          · simp only [isContByte, Bool.and_eq_true, decide_eq_true_eq]
            omega
          · simp only [isContByte, Bool.and_eq_true, decide_eq_true_eq]
            omega
        have hstep : utf8StepLen (0xF0 + c.toNat / 262144)
            ((0x80 + c.toNat / 4096 % 64) :: (0x80 + c.toNat / 64 % 64) ::
              (0x80 + c.toNat % 64) :: rest) = some 3 := by
          unfold utf8StepLen
          rw [if_neg (by omega), if_neg (by omega), if_neg (by omega), if_pos (by omega)]
          exact if_pos hcond
        show utf8DecodeAux repl
          (((0xF0 + c.toNat / 262144) :: (0x80 + c.toNat / 4096 % 64) ::
            (0x80 + c.toNat / 64 % 64) :: (0x80 + c.toNat % 64) :: rest).length)
          ((0xF0 + c.toNat / 262144) :: (0x80 + c.toNat / 4096 % 64) ::
            (0x80 + c.toNat / 64 % 64) :: (0x80 + c.toNat % 64) :: rest) = _
        simp only [List.length_cons, utf8DecodeAux, hstep, List.take_succ_cons, List.take_zero,
          List.drop_succ_cons, List.drop_zero, utf8Scalar]
        have hsc : (0xF0 + c.toNat / 262144 - 0xF0) * 262144 +
            (0x80 + c.toNat / 4096 % 64 - 0x80) * 4096 +
            (0x80 + c.toNat / 64 % 64 - 0x80) * 64 + (0x80 + c.toNat % 64 - 0x80) = c.toNat := by
          omega
        rw [hsc, hofn]
        exact congrArg _ (utf8DecodeAux_fuel repl _ rest (by omega) _ (Nat.le_refl _))

theorem utf8DecodeWith_utf8Encode (repl : List Char) (s : List Char) :
    utf8DecodeWith repl (utf8Encode s) = s := by
  induction s with
  | nil => rfl
  | cons c cs ih =>
    have : utf8Encode (c :: cs) = utf8EncodeChar c ++ utf8Encode cs := by
      simp [utf8Encode]
    rw [this, utf8DecodeWith_encodeChar, ih]

/-! ## C8 infrastructure: the Base64 round trip -/

theorem b64Index_b64Char : ∀ i < 64, b64Index (b64Char i) = some i := by decide

theorem b64Char_ne_pad : ∀ i < 64, b64Char i ≠ '=' := by decide

theorem b64EncodeBytes_spec :
    ∀ (bs : List Nat), (∀ b ∈ bs, b < 256) →
      ∃ ds : List Nat,
        b64EncodeBytes bs = ds.map b64Char ++ List.replicate (b64PadLen bs) '=' ∧
        (∀ d ∈ ds, d < 64) ∧
        ds.length % 4 ≠ 1 ∧
        (ds.length + b64PadLen bs) % 4 = 0 := by
  intro bs
  induction bs using b64EncodeBytes.induct with
  | case1 =>
    intro _
    exact ⟨[], rfl, by simp, by simp, by simp [b64PadLen]⟩
  | case2 a =>
    intro h
    have ha : a < 256 := h a (by simp)
    refine ⟨[a / 4, a % 4 * 16], ?_, ?_, by simp, by simp [b64PadLen]⟩
    · simp [b64EncodeBytes, b64PadLen, List.replicate]
    · intro d hd
      simp only [List.mem_cons, List.not_mem_nil, or_false] at hd
      rcases hd with rfl | rfl <;> omega
  | case3 a b =>
    intro h
    have ha : a < 256 := h a (by simp)
    have hb : b < 256 := h b (by simp)
    refine ⟨[a / 4, a % 4 * 16 + b / 16, b % 16 * 4], ?_, ?_, by simp, by simp [b64PadLen]⟩
    · simp [b64EncodeBytes, b64PadLen, List.replicate]
    · intro d hd
      simp only [List.mem_cons, List.not_mem_nil, or_false] at hd
      rcases hd with rfl | rfl | rfl <;> omega
  | case4 a b c rest ih =>
    intro h
    have ha : a < 256 := h a (by simp)
    have hb : b < 256 := h b (by simp)
    have hc : c < 256 := h c (by simp)
    obtain ⟨ds, henc, hdig, hne1, hmod⟩ := ih (fun x hx => h x (by simp [hx]))
    have hpad : b64PadLen (a :: b :: c :: rest) = b64PadLen rest := by
      simp only [b64PadLen, List.length_cons]
      omega
    refine ⟨(a / 4) :: (a % 4 * 16 + b / 16) :: (b % 16 * 4 + c / 64) :: (c % 64) :: ds,
      ?_, ?_, ?_, ?_⟩
    · show b64Char (a / 4) :: b64Char (a % 4 * 16 + b / 16) :: b64Char (b % 16 * 4 + c / 64) ::
        b64Char (c % 64) :: b64EncodeBytes rest = _
      rw [henc, hpad]
      simp
    · intro d hd
      simp only [List.mem_cons] at hd
      rcases hd with rfl | rfl | rfl | rfl | hd
      · omega
      · omega
      · omega
      · omega
      · exact hdig d hd
    · simp only [List.length_cons]
      omega
    · simp only [List.length_cons, hpad]
      omega

theorem takeWhile_append_head {p : α → Bool} :
    ∀ (xs ys : List α), (∀ x ∈ xs, p x = true) →
      (∀ y, ys.head? = some y → p y = false) →
      (xs ++ ys).takeWhile p = xs ∧ (xs ++ ys).dropWhile p = ys := by
  intro xs
  induction xs with
  | nil =>
    intro ys _ hy
    cases ys with
    | nil => exact ⟨rfl, rfl⟩
    | cons y t =>
      have := hy y rfl
      exact ⟨List.takeWhile_cons_of_neg (by simp [this]), List.dropWhile_cons_of_neg (by simp [this])⟩
  | cons x xs ih =>
    intro ys hx hy
    have hpx : p x = true := hx x (by simp)
    obtain ⟨h1, h2⟩ := ih ys (fun a ha => hx a (by simp [ha])) hy
    constructor
    · simp only [List.cons_append, List.takeWhile_cons_of_pos hpx, h1]
    · simp only [List.cons_append]
      rw [List.dropWhile_cons_of_pos hpx]
      exact h2

theorem dropWhile_eq_replicate_append (n : Nat) (a : Char) (l : List Char) :
    (List.replicate n a ++ l).dropWhile (fun c => c = a) = l.dropWhile (fun c => c = a) := by
  induction n with
  | zero => simp
  | succ m ih =>
    rw [List.replicate_succ, List.cons_append, List.dropWhile_cons_of_pos (by simp), ih]

theorem dropWhile_eq_self_of_ne (l : List Char) (a : Char) (h : ∀ x ∈ l, x ≠ a) :
    l.dropWhile (fun c => c = a) = l := by
  cases l with
  | nil => rfl
  | cons x t => exact List.dropWhile_cons_of_neg (by simp [h x (by simp)])

theorem b64Char_ascii : ∀ i < 64, (b64Char i).toNat < 128 := by decide

theorem a2bBase64_step0 (i : Nat) (hi : i < 64) (rest : List Char)
    (leftchar pads : Nat) (acc : List Nat) :
    a2bBase64 (b64Char i :: rest) 0 leftchar pads acc = a2bBase64 rest 1 i 0 acc := by
  simp only [a2bBase64]
  rw [if_neg (b64Char_ne_pad i hi), b64Index_b64Char i hi]

theorem a2bBase64_step1 (i : Nat) (hi : i < 64) (rest : List Char)
    (leftchar pads : Nat) (acc : List Nat) :
    a2bBase64 (b64Char i :: rest) 1 leftchar pads acc =
      a2bBase64 rest 2 ((leftchar * 64 + i) % 16) 0 ((leftchar * 64 + i) / 16 :: acc) := by
  simp only [a2bBase64]
  rw [if_neg (b64Char_ne_pad i hi), b64Index_b64Char i hi]

theorem a2bBase64_step2 (i : Nat) (hi : i < 64) (rest : List Char)
    (leftchar pads : Nat) (acc : List Nat) :
    a2bBase64 (b64Char i :: rest) 2 leftchar pads acc =
      a2bBase64 rest 3 ((leftchar * 64 + i) % 4) 0 ((leftchar * 64 + i) / 4 :: acc) := by
  simp only [a2bBase64]
  rw [if_neg (b64Char_ne_pad i hi), b64Index_b64Char i hi]

theorem a2bBase64_step3 (i : Nat) (hi : i < 64) (rest : List Char)
    (leftchar pads : Nat) (acc : List Nat) :
    a2bBase64 (b64Char i :: rest) 3 leftchar pads acc =
      a2bBase64 rest 0 0 0 ((leftchar * 64 + i) :: acc) := by
  simp only [a2bBase64]
  rw [if_neg (b64Char_ne_pad i hi), b64Index_b64Char i hi]

theorem a2bBase64_encode :
    ∀ (bs : List Nat), (∀ b ∈ bs, b < 256) → ∀ (acc : List Nat),
      a2bBase64 (b64EncodeBytes bs) 0 0 0 acc = some (acc.reverse ++ bs) := by
  intro bs
  induction bs using b64EncodeBytes.induct with
  | case1 =>
    intro _ acc
    simp [a2bBase64]
  | case2 a =>
    intro h acc
    have ha : a < 256 := h a (by simp)
    show a2bBase64 (b64Char (a / 4) :: b64Char (a % 4 * 16) :: '=' :: '=' :: []) 0 0 0 acc = _
    rw [a2bBase64_step0 (a / 4) (by omega), a2bBase64_step1 (a % 4 * 16) (by omega)]
    have e1 : a / 4 * 64 + a % 4 * 16 = a * 16 := by omega
    rw [e1, Nat.mul_div_cancel a (by omega), Nat.mul_mod_left a 16]
    simp [a2bBase64]
  | case3 a b =>
    intro h acc
    have ha : a < 256 := h a (by simp)
    have hb : b < 256 := h b (by simp)
    show a2bBase64 (b64Char (a / 4) :: b64Char (a % 4 * 16 + b / 16) ::
      b64Char (b % 16 * 4) :: '=' :: []) 0 0 0 acc = _
    rw [a2bBase64_step0 (a / 4) (by omega), a2bBase64_step1 (a % 4 * 16 + b / 16) (by omega)]
    have e1 : (a / 4 * 64 + (a % 4 * 16 + b / 16)) / 16 = a := by omega
    have e2 : (a / 4 * 64 + (a % 4 * 16 + b / 16)) % 16 = b / 16 := by omega
    rw [e1, e2, a2bBase64_step2 (b % 16 * 4) (by omega)]
    have e3 : (b / 16 * 64 + b % 16 * 4) / 4 = b := by omega
    rw [e3]
    simp [a2bBase64, List.append_assoc]
  | case4 a b c rest ih =>
    intro h acc
    have ha : a < 256 := h a (by simp)
    have hb : b < 256 := h b (by simp)
    have hc : c < 256 := h c (by simp)
    show a2bBase64 (b64Char (a / 4) :: b64Char (a % 4 * 16 + b / 16) ::
      b64Char (b % 16 * 4 + c / 64) :: b64Char (c % 64) :: b64EncodeBytes rest) 0 0 0 acc = _
    rw [a2bBase64_step0 (a / 4) (by omega), a2bBase64_step1 (a % 4 * 16 + b / 16) (by omega)]
    have e1 : (a / 4 * 64 + (a % 4 * 16 + b / 16)) / 16 = a := by omega
    have e2 : (a / 4 * 64 + (a % 4 * 16 + b / 16)) % 16 = b / 16 := by omega
    rw [e1, e2, a2bBase64_step2 (b % 16 * 4 + c / 64) (by omega)]
    have e3 : (b / 16 * 64 + (b % 16 * 4 + c / 64)) / 4 = b := by omega
    have e4 : (b / 16 * 64 + (b % 16 * 4 + c / 64)) % 4 = c / 64 := by omega
    rw [e3, e4, a2bBase64_step3 (c % 64) (by omega)]
    have e5 : c / 64 * 64 + c % 64 = c := by omega
    rw [e5, ih (fun x hx => h x (by simp [hx])) (c :: b :: a :: acc)]
    simp [List.append_assoc]

theorem encode_ascii (bs : List Nat) (hb : ∀ b ∈ bs, b < 256) :
    ∀ c ∈ b64EncodeBytes bs, c.toNat < 128 := by
  obtain ⟨ds, henc, hdig, _, _⟩ := b64EncodeBytes_spec bs hb
  rw [henc]
  intro c hc
  rcases List.mem_append.mp hc with hc | hc
  · obtain ⟨d, hd, rfl⟩ := List.mem_map.mp hc
    exact b64Char_ascii d (hdig d hd)
  · rw [List.eq_of_mem_replicate hc]
    decide

theorem b64_decode_encode (bs : List Nat) (hb : ∀ b ∈ bs, b < 256) :
    b64DecodePy (b64EncodeBytes bs) = some bs ∧
    (b64EncodeBytes bs).length % 4 = 0 ∧
    stripPadEq (b64EncodeBytes bs) ++
      List.replicate ((4 - (stripPadEq (b64EncodeBytes bs)).length % 4) % 4) '=' =
      b64EncodeBytes bs := by
  obtain ⟨ds, henc, hdig, hne1, hmod⟩ := b64EncodeBytes_spec bs hb
  have hple : b64PadLen bs ≤ 2 := by unfold b64PadLen; omega
  have hstrip : stripPadEq (b64EncodeBytes bs) = ds.map b64Char := by
    rw [henc]
    unfold stripPadEq
    rw [List.reverse_append, List.reverse_replicate, dropWhile_eq_replicate_append,
      dropWhile_eq_self_of_ne _ _ ?_, List.reverse_reverse]
    intro x hx
    rw [List.mem_reverse] at hx
    obtain ⟨d, hd, rfl⟩ := List.mem_map.mp hx
    exact b64Char_ne_pad d (hdig d hd)
  have hdecode : b64DecodePy (b64EncodeBytes bs) = some bs := by
    unfold b64DecodePy
    rw [if_pos (encode_ascii bs hb)]
    have := a2bBase64_encode bs hb []
    simpa using this
  have hlen0 : (b64EncodeBytes bs).length % 4 = 0 := by
    rw [henc]
    simp only [List.length_append, List.length_map, List.length_replicate]
    omega
  refine ⟨hdecode, hlen0, ?_⟩
  rw [hstrip, henc]
  have hcount : (4 - (ds.map b64Char).length % 4) % 4 = b64PadLen bs := by
    simp only [List.length_map]
    omega
  rw [hcount]

/-! ## C8 infrastructure: the percent-encoding round trip -/

theorem toNat_charOfNat (n : Nat) (h : n.isValidChar) : (Char.ofNat n).toNat = n := by
  unfold Char.ofNat
  rw [dif_pos h]
  rfl

theorem hexVal_hexUpperDigit : ∀ d < 16, hexVal (hexUpperDigit d) = some d := by decide

theorem safeByte_lt (b : Nat) (h : safeByte b = true) : b < 128 := by
  simp only [safeByte, Bool.or_eq_true, Bool.and_eq_true, decide_eq_true_eq] at h
  omega

theorem safeByte_37 : safeByte 37 = false := by decide

theorem unquoteTokensAux_fuel :
    ∀ (f1 : Nat) (l : List Char), l.length ≤ f1 → ∀ (f2 : Nat), l.length ≤ f2 →
      unquoteTokensAux f1 l = unquoteTokensAux f2 l := by
  intro f1
  induction f1 with
  | zero =>
    intro l hl f2 h2
    cases l with
    | nil => cases f2 <;> rfl
    | cons c cs => simp at hl
  | succ f ih =>
    intro l hl f2 h2
    cases l with
    | nil => cases f2 <;> rfl
    | cons c cs =>
      cases f2 with
      | zero => simp at h2
      | succ f2' =>
        simp only [List.length_cons] at hl h2
        simp only [unquoteTokensAux]
        by_cases hc : c = '%'
        · rw [if_pos hc, if_pos hc]
          cases cs with
          | nil => exact congrArg _ (ih _ (by simp) _ (by simp))
          | cons h1 t1 =>
            cases t1 with
            | nil =>
              refine congrArg _ (ih _ ?_ _ ?_) <;>
                (simp only [List.length_cons] at hl h2 ⊢; omega)
            | cons h2c t2 =>
              simp only [List.length_cons] at hl h2
              cases hv1 : hexVal h1 with
              | none =>
                simp only [hv1]
                refine congrArg _ (ih _ ?_ _ ?_) <;>
                  (simp only [List.length_cons]; omega)
              | some v1 =>
                cases hv2 : hexVal h2c with
                | none =>
                  simp only [hv1, hv2]
                  refine congrArg _ (ih _ ?_ _ ?_) <;>
                    (simp only [List.length_cons]; omega)
                | some v2 =>
                  simp only [hv1, hv2]
                  refine congrArg _ (ih _ ?_ _ ?_) <;> omega
        · rw [if_neg hc, if_neg hc]
          exact congrArg _ (ih _ (by omega) _ (by omega))

theorem unquoteTokens_cons_lit (c : Char) (cs : List Char) (hc : c ≠ '%') :
    unquoteTokens (c :: cs) = PctTok.lit c :: unquoteTokens cs := by
  show unquoteTokensAux (c :: cs).length (c :: cs) = _
  simp only [List.length_cons, unquoteTokensAux]
  rw [if_neg hc]
  rfl

theorem unquoteTokens_pct (h1 h2 : Char) (cs : List Char) (v1 v2 : Nat)
    (hv1 : hexVal h1 = some v1) (hv2 : hexVal h2 = some v2) :
    unquoteTokens ('%' :: h1 :: h2 :: cs) = PctTok.byte (v1 * 16 + v2) :: unquoteTokens cs := by
  show unquoteTokensAux ('%' :: h1 :: h2 :: cs).length ('%' :: h1 :: h2 :: cs) = _
  simp only [List.length_cons, unquoteTokensAux, hv1, hv2, if_pos]
  refine congrArg _ (unquoteTokensAux_fuel _ _ ?_ _ ?_) <;> omega

theorem unquoteTokens_quoteBytes :
    ∀ (bs : List Nat), (∀ b ∈ bs, b < 256) →
      unquoteTokens (bs.flatMap quoteByte) = bs.map tokOfByte := by
  intro bs
  induction bs with
  | nil => intro _; rfl
  | cons b t ih =>
    intro h
    have hb : b < 256 := h b (by simp)
    have ht := ih (fun x hx => h x (by simp [hx]))
    rw [List.flatMap_cons]
    by_cases hs : safeByte b
    · have hq : quoteByte b = [Char.ofNat b] := by
        unfold quoteByte
        rw [if_pos hs]
      have hlt : b < 128 := safeByte_lt b hs
      have hnp : Char.ofNat b ≠ '%' := by
        intro he
        have h37 : (Char.ofNat b).toNat = 37 := by rw [he]; rfl
        rw [toNat_charOfNat b (Or.inl (by omega))] at h37
        rw [h37, safeByte_37] at hs
        exact Bool.noConfusion hs
      rw [hq, List.singleton_append, unquoteTokens_cons_lit _ _ hnp, ht]
      have : tokOfByte b = PctTok.lit (Char.ofNat b) := by
        unfold tokOfByte
        rw [if_pos hs]
      rw [List.map_cons, this]
    · have hq : quoteByte b = ['%', hexUpperDigit (b / 16), hexUpperDigit (b % 16)] := by
        unfold quoteByte
        rw [if_neg hs]
      rw [hq]
      show unquoteTokens ('%' :: hexUpperDigit (b / 16) :: hexUpperDigit (b % 16) ::
        t.flatMap quoteByte) = _
      rw [unquoteTokens_pct _ _ _ (b / 16) (b % 16)
        (hexVal_hexUpperDigit (b / 16) (by omega)) (hexVal_hexUpperDigit (b % 16) (by omega)), ht]
      have : tokOfByte b = PctTok.byte (b / 16 * 16 + b % 16) := by
        unfold tokOfByte
        rw [if_neg hs]
        congr 1
        omega
      rw [List.map_cons, this]

theorem unquoteRenderAux_fuel :
    ∀ (f1 : Nat) (l : List PctTok), l.length ≤ f1 → ∀ (f2 : Nat), l.length ≤ f2 →
      unquoteRenderAux f1 l = unquoteRenderAux f2 l := by
  intro f1
  induction f1 with
  | zero =>
    intro l hl f2 h2
    cases l with
    | nil => cases f2 <;> rfl
    | cons t ts => simp at hl
  | succ f ih =>
    intro l hl f2 h2
    cases l with
    | nil => cases f2 <;> rfl
    | cons t ts =>
      cases f2 with
      | zero => simp at h2
      | succ f2' =>
        simp only [List.length_cons] at hl h2
        cases t with
        | lit c =>
          simp only [unquoteRenderAux]
          exact congrArg _ (ih _ (by omega) _ (by omega))
        | byte b =>
          simp only [unquoteRenderAux]
          have hld := List.length_drop (ts.takeWhile tokIsByte).length ts
          refine congrArg _ (ih _ ?_ _ ?_) <;> omega

theorem unquoteRender_lit (c : Char) (rest : List PctTok) :
    unquoteRender (PctTok.lit c :: rest) = c :: unquoteRender rest := by
  show unquoteRenderAux (PctTok.lit c :: rest).length (PctTok.lit c :: rest) = _
  simp only [List.length_cons, unquoteRenderAux]
  rfl

theorem unquoteRender_byteRun (bs : List Nat) (ts : List PctTok)
    (hts : ∀ t, ts.head? = some t → tokIsByte t = false) :
    unquoteRender (bs.map PctTok.byte ++ ts) = utf8DecodeWith ['�'] bs ++ unquoteRender ts := by
  cases bs with
  | nil => rfl
  | cons b bs2 =>
    have hmap : ∀ x ∈ bs2.map PctTok.byte, tokIsByte x = true := by
      intro x hx
      obtain ⟨d, _, rfl⟩ := List.mem_map.mp hx
      rfl
    obtain ⟨htake, _⟩ := takeWhile_append_head (bs2.map PctTok.byte) ts hmap hts
    show unquoteRenderAux ((PctTok.byte b :: (bs2.map PctTok.byte ++ ts)).length)
      (PctTok.byte b :: (bs2.map PctTok.byte ++ ts)) = _
    simp only [List.length_cons, unquoteRenderAux, htake]
    have hvals : (bs2.map PctTok.byte).map tokByteVal = bs2 := by
      rw [List.map_map]
      have : ∀ x ∈ bs2, (tokByteVal ∘ PctTok.byte) x = id x := fun x _ => rfl
      rw [List.map_congr_left this, List.map_id]
    rw [hvals]
    rw [List.drop_left' (rfl : (bs2.map PctTok.byte).length = (bs2.map PctTok.byte).length)]
    congr 1
    refine unquoteRenderAux_fuel _ _ ?_ _ (Nat.le_refl _)
    simp only [List.length_append, List.length_map]
    omega

theorem flatMap_tokOfChar_escaped (u : List Char) (h : ∀ x ∈ u, safeChar x = false) :
    u.flatMap tokOfChar = (u.flatMap utf8EncodeChar).map PctTok.byte := by
  induction u with
  | nil => rfl
  | cons c t ih =>
    rw [List.flatMap_cons, List.flatMap_cons, List.map_append,
      ih (fun x hx => h x (by simp [hx]))]
    have : tokOfChar c = (utf8EncodeChar c).map PctTok.byte := by
      unfold tokOfChar
      rw [if_neg (by simp [h c (by simp)])]
    rw [this]

theorem dropWhile_head_not {p : α → Bool} :
    ∀ (l : List α) (a : α), l.dropWhile p = a :: (l.dropWhile p).tail → p a = false := by
  intro l
  induction l with
  | nil => intro a h; simp at h
  | cons x t ih =>
    intro a h
    by_cases hx : p x
    · rw [List.dropWhile_cons_of_pos hx] at h
      exact ih a h
    · rw [List.dropWhile_cons_of_neg hx] at h
      have : x = a := by
        have := congrArg List.head? h
        simpa using this
      rw [← this]
      exact Bool.eq_false_iff.mpr hx

theorem unquoteRender_tokOfChar_aux :
    ∀ (n : Nat) (cs : List Char), cs.length ≤ n →
      unquoteRender (cs.flatMap tokOfChar) = cs := by
  intro n
  induction n with
  | zero =>
    intro cs h
    cases cs with
    | nil => rfl
    | cons c t => simp at h
  | succ n ih =>
    intro cs hlen
    cases cs with
    | nil => rfl
    | cons c cs2 =>
      by_cases hs : safeChar c
      · have hflat : (c :: cs2).flatMap tokOfChar = PctTok.lit c :: cs2.flatMap tokOfChar := by
          rw [List.flatMap_cons]
          have : tokOfChar c = [PctTok.lit c] := by
            unfold tokOfChar
            rw [if_pos hs]
          rw [this, List.singleton_append]
        rw [hflat, unquoteRender_lit, ih cs2 (by simp only [List.length_cons] at hlen; omega)]
      · have hu : (c :: cs2).takeWhile (fun x => !safeChar x) =
            c :: cs2.takeWhile (fun x => !safeChar x) :=
          List.takeWhile_cons_of_pos (by simp [hs])
        set u := (c :: cs2).takeWhile (fun x => !safeChar x) with hu_def
        set v := (c :: cs2).dropWhile (fun x => !safeChar x) with hv_def
        have huv : u ++ v = c :: cs2 := List.takeWhile_append_dropWhile _ _
        have hu_esc : ∀ x ∈ u, safeChar x = false := by
          intro x hx
          have := List.mem_takeWhile_imp hx
          simpa using this
        have hv_head : ∀ t, (v.flatMap tokOfChar).head? = some t → tokIsByte t = false := by
          intro t ht
          cases hv : v with
          | nil => rw [hv] at ht; simp at ht
          | cons a v2 =>
            have hsa : safeChar a = true := by
              have hdw : (c :: cs2).dropWhile (fun x => !safeChar x) =
                  a :: ((c :: cs2).dropWhile (fun x => !safeChar x)).tail := by
                rw [← hv_def, hv]
                rfl
              have := dropWhile_head_not _ _ hdw
              simpa using this
            rw [hv] at ht
            rw [List.flatMap_cons] at ht
            have hta : tokOfChar a = [PctTok.lit a] := by
              unfold tokOfChar
              rw [if_pos hsa]
            rw [hta, List.singleton_append, List.head?_cons] at ht
            have : PctTok.lit a = t := Option.some.inj ht
            rw [← this]
            rfl
        have hflat : (c :: cs2).flatMap tokOfChar =
            (u.flatMap utf8EncodeChar).map PctTok.byte ++ v.flatMap tokOfChar := by
          rw [← huv, List.flatMap_append, flatMap_tokOfChar_escaped u hu_esc]
        rw [hflat, unquoteRender_byteRun _ _ hv_head]
        have hdec : utf8DecodeWith ['�'] (u.flatMap utf8EncodeChar) = u :=
          utf8DecodeWith_utf8Encode _ u
        have hvlen : v.length ≤ n := by
          have h1 : u.length + v.length = cs2.length + 1 := by
            have := congrArg List.length huv
            simpa using this
          have h2 : 1 ≤ u.length := by
            rw [hu]
            simp
          simp only [List.length_cons] at hlen
          omega
        rw [hdec, ih v hvlen, huv]

theorem map_tokOfByte_utf8 : ∀ (cs : List Char),
    (utf8Encode cs).map tokOfByte = cs.flatMap tokOfChar := by
  intro cs
  induction cs with
  | nil => rfl
  | cons c t ih =>
    have henc : utf8Encode (c :: t) = utf8EncodeChar c ++ utf8Encode t := by
      simp [utf8Encode]
    rw [henc, List.map_append, ih, List.flatMap_cons]
    congr 1
    by_cases hs : safeChar c
    · have hlt : c.toNat < 128 := safeByte_lt c.toNat hs
      have henc1 : utf8EncodeChar c = [c.toNat] := by
        simp only [utf8EncodeChar]
        rw [if_pos hlt]
      rw [henc1]
      show [tokOfByte c.toNat] = tokOfChar c
      have h1 : tokOfByte c.toNat = PctTok.lit (Char.ofNat c.toNat) := by
        unfold tokOfByte
        rw [if_pos (show safeByte c.toNat = true from hs)]
      have h2 : tokOfChar c = [PctTok.lit c] := by
        unfold tokOfChar
        rw [if_pos hs]
      rw [h1, h2, Char.ofNat_toNat]
    · have hesc : ∀ b ∈ utf8EncodeChar c, safeByte b = false := by
        intro b hb
        by_cases hlt : c.toNat < 128
        · have henc1 : utf8EncodeChar c = [c.toNat] := by
            simp only [utf8EncodeChar]
            rw [if_pos hlt]
          rw [henc1] at hb
          simp only [List.mem_singleton] at hb
          rw [hb]
          exact Bool.eq_false_iff.mpr hs
        · have hge : 128 ≤ b := by
            simp only [utf8EncodeChar] at hb
            rw [if_neg hlt] at hb
            split_ifs at hb with h2 h3
            · simp only [List.mem_cons, List.not_mem_nil, or_false] at hb
              rcases hb with hb | hb <;> omega
            · simp only [List.mem_cons, List.not_mem_nil, or_false] at hb
              rcases hb with hb | hb | hb <;> omega
            · simp only [List.mem_cons, List.not_mem_nil, or_false] at hb
              rcases hb with hb | hb | hb | hb <;> omega
          cases hsb : safeByte b with
          | false => rfl
          | true => exact absurd (safeByte_lt b hsb) (by omega)
      have h2 : tokOfChar c = (utf8EncodeChar c).map PctTok.byte := by
        unfold tokOfChar
        rw [if_neg (by simp [hs])]
      rw [h2]
      apply List.map_congr_left
      intro b hb
      unfold tokOfByte
      rw [if_neg (by simp [hesc b hb])]

theorem utf8Encode_all_lt (s : List Char) : ∀ b ∈ utf8Encode s, b < 256 := by
  intro b hb
  obtain ⟨c, _, hbc⟩ := List.mem_flatMap.mp hb
  have hv : c.toNat < 0x110000 := by
    have : c.toNat < 0xD800 ∨ (0xDFFF < c.toNat ∧ c.toNat < 0x110000) := c.valid
    omega
  simp only [utf8EncodeChar] at hbc
  split_ifs at hbc with h1 h2 h3
  · simp only [List.mem_singleton] at hbc
    omega
  · simp only [List.mem_cons, List.not_mem_nil, or_false] at hbc
    rcases hbc with rfl | rfl <;> omega
  · simp only [List.mem_cons, List.not_mem_nil, or_false] at hbc
    rcases hbc with rfl | rfl | rfl <;> omega
  · simp only [List.mem_cons, List.not_mem_nil, or_false] at hbc
    rcases hbc with rfl | rfl | rfl | rfl <;> omega

theorem toList_mk (l : List Char) : (String.mk l).toList = l := rfl

theorem unquote_percentEncode (T : String) : unquote (percentEncode T) = T := by
  unfold unquote percentEncode
  rw [toList_mk]
  rw [unquoteTokens_quoteBytes _ (utf8Encode_all_lt T.toList)]
  rw [map_tokOfByte_utf8]
  rw [unquoteRender_tokOfChar_aux T.toList.length T.toList (Nat.le_refl _)]
  exact String.mk_toList T

/-- C8: for every text `T`, `decrypt_base64` applied to the Base64 encoding
of the percent-encoding of `T` (`base64encode(urlencode(T))`) returns
exactly `T` — both with the `=` padding intact and with the padding
stripped, since the function first right-pads its input with `=` to a
multiple of 4. -/
theorem decrypt_roundtrip (T : String) :
    decrypt_base64 (String.mk (b64EncodeBytes (utf8Encode (percentEncode T).toList))) = T ∧
    decrypt_base64
      (String.mk (stripPadEq (b64EncodeBytes (utf8Encode (percentEncode T).toList)))) = T := by
  obtain ⟨hdec, hlen0, hrepad⟩ :=
    b64_decode_encode (utf8Encode (percentEncode T).toList)
      (utf8Encode_all_lt (percentEncode T).toList)
  have hfinish : unquote (String.mk (utf8DecodeWith []
      (utf8Encode (percentEncode T).toList))) = T := by
    rw [utf8DecodeWith_utf8Encode, String.mk_toList]
    exact unquote_percentEncode T
  constructor
  · simp only [decrypt_base64, toList_mk]
    have hc : (4 - (b64EncodeBytes (utf8Encode (percentEncode T).toList)).length % 4) % 4 = 0 := by
      omega
    rw [hc, List.replicate_zero, List.append_nil]
    simp only [hdec]
    exact hfinish
  · simp only [decrypt_base64, toList_mk]
    rw [hrepad]
    simp only [hdec]
    exact hfinish

end BitTorrent
